import Mathlib

/-!
Verification of the sharded gradient/parameter synchronization layer of
marian-dev: the shard partitioner, the CPU-side state scatter/gather,
the distributed parameter swap (`NCCLCommunicator` in
src/training/communicator.cu) and the sharded optimizer-state codec
(`Adagrad::load` / `Adam::load` in src/optimizers/optimizers.cu).

The C++ code is shallowly embedded: `size_t` arithmetic becomes `Nat`
(all quantities involved are small positive counts, no overflow occurs),
device buffers become `List α` for an arbitrary element type `α` (the
operations verified here only move data, they never compute on it), a
fatal `ABORT_IF` becomes an `Option` returning `none`, and the consumed
MPI/NCCL broadcast primitive - assumed correct by the layer - is embedded
as a function that delivers the root's buffer.
-/

namespace Marian

/-- Configuration of one communicator: the number of local GPU devices
(`devices_.size()`), and `some numMPIProcesses` when an MPI wrapper is
present (`mpi_` non-null) or `none` otherwise. -/
structure CommConfig where
  numDevices : Nat
  mpi : Option Nat

/-- Number of MPI processes participating in the job; a null `mpi_`
means a single process. -/
def numProcs (cfg : CommConfig) : Nat :=
  match cfg.mpi with
  | some procs => procs
  | none => 1

/-- NCCLCommunicator::myNcclRank (communicator.cu:44-49): map a local
device index to a global rank, process-major. -/
def myNcclRank (cfg : CommConfig) (mpiRank localDeviceIndex : Nat) : Nat :=
  match cfg.mpi with
  | some _ => mpiRank * cfg.numDevices + localDeviceIndex
  | none => localDeviceIndex

/-- NCCLCommunicator::numNcclRanks (communicator.cu:51-56): total device
count across all MPI processes. -/
def numNcclRanks (cfg : CommConfig) : Nat :=
  match cfg.mpi with
  | some procs => procs * cfg.numDevices
  | none => cfg.numDevices

/-- NCCLCommunicator::shardSize (communicator.cu:65-72): ceiling division
of the data size by the rank count, with a fatal abort (modelled as
`none`) unless the resulting uniform shard size tiles the data exactly. -/
def shardSize (dataSize numRanks : Nat) : Option Nat :=
  let size := (dataSize + numRanks - 1) / numRanks
  if size * numRanks ≠ dataSize then none else some size

/-- NCCLCommunicator::ncclRankShardRange (communicator.cu:74-81): the
half-open index range of a rank's shard; `none` when `shardSize` aborts. -/
def ncclRankShardRange (dataSize numRanks rank : Nat) : Option (Nat × Nat) :=
  (shardSize dataSize numRanks).map fun size =>
    (rank * size, min (rank * size + size) dataSize)

theorem shardSize_of_dvd (dataSize numRanks : Nat) (hR : 0 < numRanks)
    (hdvd : numRanks ∣ dataSize) :
    shardSize dataSize numRanks = some (dataSize / numRanks) := by
  obtain ⟨k, hk⟩ := hdvd
  subst hk
  have hceil : (numRanks * k + numRanks - 1) / numRanks = k := by
    have h1 : numRanks * k + numRanks - 1 = numRanks * k + (numRanks - 1) := by omega
    rw [h1, Nat.mul_add_div hR, Nat.div_eq_of_lt (by omega)]
    omega
  have hdiv : numRanks * k / numRanks = k := by
    rw [Nat.mul_div_cancel_left _ hR]
  simp only [shardSize, hceil, hdiv]
  rw [if_neg]
  simp [Nat.mul_comm]

/-- C1: Partition completeness. When `numRanks` divides `dataSize`, the
shard ranges computed for ranks `0..numRanks-1` exactly tile
`[0, dataSize)`: every rank's range is `[r*s, r*s+s)` of length `s`
contained in `[0, dataSize)`, and every index below `dataSize` lies in
exactly one rank's range. -/
theorem partition_completeness (dataSize numRanks : Nat)
    (hR : 0 < numRanks) (hdvd : numRanks ∣ dataSize) :
    ∃ s, shardSize dataSize numRanks = some s ∧
      (∀ r, r < numRanks →
        ncclRankShardRange dataSize numRanks r = some (r * s, r * s + s)) ∧
      (∀ r, r < numRanks → r * s + s ≤ dataSize ∧ (r * s + s) - (r * s) = s) ∧
      (∀ i, i < dataSize → ∃! r, r < numRanks ∧ r * s ≤ i ∧ i < r * s + s) := by
  obtain ⟨k, hk⟩ := hdvd
  have hsz : shardSize dataSize numRanks = some k := by
    rw [shardSize_of_dvd dataSize numRanks hR ⟨k, hk⟩, hk,
      Nat.mul_div_cancel_left _ hR]
  refine ⟨k, hsz, ?_, ?_, ?_⟩
  · intro r hr
    have hle : r * k + k ≤ dataSize := by
      rw [hk]
      calc r * k + k = (r + 1) * k := by ring
        _ ≤ numRanks * k := Nat.mul_le_mul_right k (by omega)
    simp [ncclRankShardRange, hsz, Nat.min_eq_left hle]
  · intro r hr
    have hle : r * k + k ≤ dataSize := by
      rw [hk]
      calc r * k + k = (r + 1) * k := by ring
        _ ≤ numRanks * k := Nat.mul_le_mul_right k (by omega)
    exact ⟨hle, by omega⟩
  · intro i hi
    have hk0 : 0 < k := by
      rcases Nat.eq_zero_or_pos k with h0 | h0
      · subst h0; rw [hk] at hi; omega
      · exact h0
    refine ⟨i / k, ⟨?_, ?_, ?_⟩, ?_⟩
    · have : i < numRanks * k := by rw [← hk]; exact hi
      exact (Nat.div_lt_iff_lt_mul hk0).mpr this
    · calc i / k * k = k * (i / k) := by ring
        _ ≤ k * (i / k) + i % k := Nat.le_add_right _ _
        _ = i := Nat.div_add_mod i k
    · have hmod : i % k < k := Nat.mod_lt i hk0
      calc i = k * (i / k) + i % k := (Nat.div_add_mod i k).symm
        _ < k * (i / k) + k := by omega
        _ = i / k * k + k := by ring
    · intro y hy
      obtain ⟨hy1, hy2, hy3⟩ := hy
      have hm2 : i / k * k ≤ i := by
        calc i / k * k = k * (i / k) := by ring
          _ ≤ k * (i / k) + i % k := Nat.le_add_right _ _
          _ = i := Nat.div_add_mod i k
      have hm3 : i < i / k * k + k := by
        have hmod : i % k < k := Nat.mod_lt i hk0
        calc i = k * (i / k) + i % k := (Nat.div_add_mod i k).symm
          _ < k * (i / k) + k := by omega
          _ = i / k * k + k := by ring
      rcases Nat.lt_trichotomy y (i / k) with hlt | heq | hgt
      · exfalso
        have : y * k + k ≤ i / k * k := by
          calc y * k + k = (y + 1) * k := by ring
            _ ≤ i / k * k := Nat.mul_le_mul_right k (by omega)
        omega
      · exact heq
      · exfalso
        have : i / k * k + k ≤ y * k := by
          calc i / k * k + k = (i / k + 1) * k := by ring
            _ ≤ y * k := Nat.mul_le_mul_right k (by omega)
        omega

/-- Witness for C1 at `dataSize = 1000`, `numRanks = 4`. -/
theorem partition_completeness_witness :
    0 < 4 ∧ (4 : Nat) ∣ 1000 ∧
    (∃ s, shardSize 1000 4 = some s ∧
      (∀ r, r < 4 → ncclRankShardRange 1000 4 r = some (r * s, r * s + s)) ∧
      (∀ r, r < 4 → r * s + s ≤ 1000 ∧ (r * s + s) - (r * s) = s) ∧
      (∀ i, i < 1000 → ∃! r, r < 4 ∧ r * s ≤ i ∧ i < r * s + s)) :=
  ⟨by decide, by decide, partition_completeness 1000 4 (by decide) (by decide)⟩

/-- C5: uneven sharding is rejected fatally. Whenever the ceiling shard
size does not multiply back to the data size, `shardSize` aborts
(returns `none`) rather than truncating. -/
theorem shardSize_rejects_uneven (dataSize numRanks : Nat)
    (h : (dataSize + numRanks - 1) / numRanks * numRanks ≠ dataSize) :
    shardSize dataSize numRanks = none := by
  simp only [shardSize]
  rw [if_pos h]

/-- Witness for C5 at `dataSize = 1000`, `numRanks = 3`: the computed
shard size is 334, `334 * 3 = 1002 ≠ 1000`, and `shardSize` aborts. -/
theorem shardSize_rejects_uneven_witness :
    (1000 + 3 - 1) / 3 = 334 ∧ 334 * 3 ≠ 1000 ∧ shardSize 1000 3 = none :=
  ⟨by decide, by decide, shardSize_rejects_uneven 1000 3 (by decide)⟩

variable {α : Type} {β : Type}

/-- Slice handed to `setFn` for one rank by NCCLCommunicator::scatterState
(communicator.cu:285-296): `shardSize` is recomputed locally by ceiling
division with no abort, `begin = ncclRank * shardSize`,
`end = min(begin + shardSize, dataSize)`, and the slice is
`data[begin..end)`. -/
def sliceOf (data : List α) (numShards rank : Nat) : List α :=
  let dataSize := data.length
  let shard := (dataSize + numShards - 1) / numShards
  let b := rank * shard
  let e := min (b + shard) dataSize
  (data.drop b).take (e - b)

/-- The sequence of `setFn(localDeviceIndex, begin, end)` invocations made
by NCCLCommunicator::scatterState (communicator.cu:285-296) on the process
of MPI rank `mpiRank`: one call per local device, in device order. -/
def scatterStateCalls (cfg : CommConfig) (mpiRank : Nat) (data : List α) :
    List (Nat × List α) :=
  (List.range cfg.numDevices).map fun localDeviceIndex =>
    (localDeviceIndex,
      sliceOf data (numNcclRanks cfg) (myNcclRank cfg mpiRank localDeviceIndex))

/-- Effect of scatterState on a per-device store when `setFn` writes the
received slice into the device's storage: each call overwrites one local
device's entry. -/
def runScatterState (cfg : CommConfig) (mpiRank : Nat) (data : List α)
    (store : Nat → List α) : Nat → List α :=
  (scatterStateCalls cfg mpiRank data).foldl
    (fun st c => Function.update st c.1 c.2) store

/-- The consumed MPI broadcast primitive (`mpi_->bCast`), assumed correct
by this layer: every process receives the root process's buffer. -/
def mpiBCast (localOf : Nat → List α) (root : Nat) : List α := localOf root

/-- Concatenation of `getFn` over the local devices, gatherState's first
phase (communicator.cu:303-307). -/
def gatherLocalConcat (cfg : CommConfig) (getFn : Nat → List α) : List α :=
  ((List.range cfg.numDevices).map getFn).flatten

/-- NCCLCommunicator::gatherState (communicator.cu:300-333) as computed by
the process of MPI rank `me`: concatenate over local devices, then - when
MPI is present - append, for each MPI rank in increasing order, that
rank's local concatenation (the root uses its own buffer, the others
receive it through the broadcast). -/
def gatherState (cfg : CommConfig) (getFn : Nat → Nat → List α) (me : Nat) :
    List α :=
  let localData := gatherLocalConcat cfg (getFn me)
  match cfg.mpi with
  | none => localData
  | some procs =>
    ((List.range procs).map fun mpiRank =>
      if mpiRank = me then localData
      else mpiBCast (fun r => gatherLocalConcat cfg (getFn r)) mpiRank).flatten

theorem sliceOf_eq_chunk (data : List α) (R r : Nat) :
    sliceOf data R r =
      (data.drop (r * ((data.length + R - 1) / R))).take
        ((data.length + R - 1) / R) := by
  have key : ∀ (l : List α) (s : Nat),
      (l.drop (r * s)).take (min (r * s + s) l.length - r * s)
        = (l.drop (r * s)).take s := by
    intro l s
    have hlen : (l.drop (r * s)).length = l.length - r * s := by simp
    rcases le_or_lt (r * s + s) l.length with h | h
    · rw [Nat.min_eq_left h]
      congr 1
      omega
    · rw [Nat.min_eq_right (by omega)]
      rw [List.take_of_length_le (by simp), List.take_of_length_le (by simp; omega)]
  exact key data ((data.length + R - 1) / R)

theorem flatten_chunks (s : Nat) :
    ∀ (n : Nat) (l : List α), l.length ≤ n * s →
      (((List.range n).map fun r => (l.drop (r * s)).take s)).flatten = l := by
  intro n
  induction n with
  | zero =>
    intro l h
    simp only [Nat.zero_mul, Nat.le_zero] at h
    simp [List.eq_nil_of_length_eq_zero h]
  | succ n ih =>
    intro l h
    rw [List.range_succ_eq_map, List.map_cons, List.map_map, List.flatten_cons]
    have hmap : ((List.range n).map
        ((fun r => (l.drop (r * s)).take s) ∘ Nat.succ))
        = (List.range n).map fun r => (((l.drop s).drop (r * s)).take s) := by
      apply List.map_congr_left
      intro r _
      simp only [Function.comp]
      rw [List.drop_drop]
      have hidx : Nat.succ r * s = s + r * s := by
        rw [Nat.succ_mul]
        omega
      rw [hidx]
    have hstep : n * s + s = (n + 1) * s := by ring
    have hlen : (l.drop s).length ≤ n * s := by
      simp
      omega
    rw [hmap, ih (l.drop s) hlen]
    simp [List.take_append_drop]

theorem le_mul_ceilDiv (L R : Nat) (hR : 0 < R) : L ≤ R * ((L + R - 1) / R) := by
  have h1 := Nat.div_add_mod (L + R - 1) R
  have h2 : (L + R - 1) % R < R := Nat.mod_lt _ hR
  omega

theorem foldl_update_range (g : Nat → β → β) (n : Nat) :
    ∀ (store : Nat → β) (i : Nat),
      ((List.range n).foldl (fun st j => Function.update st j (g j (st j))) store) i
        = if i < n then g i (store i) else store i := by
  induction n with
  | zero =>
    intro store i
    simp
  | succ n ih =>
    intro store i
    rw [List.range_succ, List.foldl_append, List.foldl_cons, List.foldl_nil]
    have hn : ((List.range n).foldl
        (fun st j => Function.update st j (g j (st j))) store) n = store n := by
      rw [ih]
      simp
    rcases eq_or_ne i n with he | hne
    · subst he
      rw [Function.update_same, hn]
      simp
    · rw [Function.update_noteq hne, ih]
      rcases Nat.lt_or_ge i n with h | h
      · rw [if_pos h, if_pos (by omega)]
      · rw [if_neg (by omega), if_neg (by omega)]

theorem runScatterState_eval (cfg : CommConfig) (p : Nat) (data : List α)
    (store : Nat → List α) (i : Nat) :
    runScatterState cfg p data store i =
      if i < cfg.numDevices then
        sliceOf data (numNcclRanks cfg) (myNcclRank cfg p i)
      else store i := by
  unfold runScatterState scatterStateCalls
  rw [List.foldl_map]
  exact foldl_update_range
    (fun j _ => sliceOf data (numNcclRanks cfg) (myNcclRank cfg p j))
    cfg.numDevices store i

theorem gatherState_mpi (cfg : CommConfig) (getFn : Nat → Nat → List α)
    (procs : Nat) (hmpi : cfg.mpi = some procs) (p : Nat) :
    gatherState cfg getFn p =
      ((List.range procs).map fun r => gatherLocalConcat cfg (getFn r)).flatten := by
  simp only [gatherState, hmpi]
  congr 1
  apply List.map_congr_left
  intro r _
  by_cases h : r = p
  · subst h
    simp
  · simp [h, mpiBCast]

theorem gatherState_single (cfg : CommConfig) (getFn : Nat → Nat → List α)
    (hmpi : cfg.mpi = none) (p : Nat) :
    gatherState cfg getFn p = gatherLocalConcat cfg (getFn p) := by
  simp only [gatherState, hmpi]

theorem flatten_range_mul (P D : Nat) (g : Nat → List α) :
    ((List.range P).map fun p =>
        ((List.range D).map fun i => g (p * D + i)).flatten).flatten
      = ((List.range (P * D)).map g).flatten := by
  induction P with
  | zero => simp
  | succ P ih =>
    rw [List.range_succ, List.map_append, List.flatten_append, ih]
    have hPD : (P + 1) * D = P * D + D := by ring
    rw [hPD, List.range_add, List.map_append, List.flatten_append, List.map_map]
    simp only [List.map_cons, List.map_nil, List.flatten_cons, List.flatten_nil,
      List.append_nil]
    rfl

/-- C6: gatherState agreement and order. With several MPI processes, every
process computes the same result, equal to the process-major concatenation
of all per-device values (each process's local devices in increasing local
index, processes in increasing rank); with a single process it is exactly
the concatenation of `getFn` over the local devices. -/
theorem gatherState_agreement (cfg : CommConfig) (getFn : Nat → Nat → List α) :
    (∀ procs, cfg.mpi = some procs →
      (∀ p q, gatherState cfg getFn p = gatherState cfg getFn q) ∧
      (∀ p, gatherState cfg getFn p =
        ((List.range procs).map fun r =>
          ((List.range cfg.numDevices).map (getFn r)).flatten).flatten)) ∧
    (cfg.mpi = none → ∀ p,
      gatherState cfg getFn p =
        ((List.range cfg.numDevices).map (getFn p)).flatten) := by
  constructor
  · intro procs hmpi
    constructor
    · intro p q
      rw [gatherState_mpi cfg getFn procs hmpi p,
        gatherState_mpi cfg getFn procs hmpi q]
    · intro p
      rw [gatherState_mpi cfg getFn procs hmpi p]
      rfl
  · intro hmpi p
    rw [gatherState_single cfg getFn hmpi p]
    rfl

/-- Witness for C6: two MPI processes with two local devices each agree
and produce the process-major concatenation; a single two-device process
produces its local concatenation. -/
theorem gatherState_agreement_witness :
    ((⟨2, some 2⟩ : CommConfig).mpi = some 2 ∧
      gatherState ⟨2, some 2⟩ (fun r i => [10 * r + i]) 0
        = gatherState ⟨2, some 2⟩ (fun r i => [10 * r + i]) 1 ∧
      gatherState ⟨2, some 2⟩ (fun r i => [10 * r + i]) 0
        = ((List.range 2).map fun r =>
            ((List.range 2).map (fun i => [10 * r + i])).flatten).flatten) ∧
    ((⟨2, none⟩ : CommConfig).mpi = none ∧
      gatherState ⟨2, none⟩ (fun r i => [10 * r + i]) 0
        = ((List.range 2).map (fun i => [10 * 0 + i])).flatten) :=
  ⟨⟨rfl, ((gatherState_agreement ⟨2, some 2⟩ fun r i => [10 * r + i]).1 2 rfl).1 0 1,
     ((gatherState_agreement ⟨2, some 2⟩ fun r i => [10 * r + i]).1 2 rfl).2 0⟩,
   rfl, (gatherState_agreement ⟨2, none⟩ fun r i => [10 * r + i]).2 rfl 0⟩

/-- C2: round-trip gather after scatter. For any data vector and any
device/process configuration (no divisibility requirement), scattering the
vector into the per-device stores of every process and then gathering
reproduces the vector exactly, in order. -/
theorem scatterState_gatherState_roundtrip (cfg : CommConfig) (data : List α)
    (stores : Nat → Nat → List α) (me : Nat)
    (hD : 0 < cfg.numDevices) (hP : 0 < numProcs cfg) :
    gatherState cfg (fun p => runScatterState cfg p data (stores p)) me = data := by
  have hlocal : ∀ p, gatherLocalConcat cfg (runScatterState cfg p data (stores p))
      = ((List.range cfg.numDevices).map fun i =>
          sliceOf data (numNcclRanks cfg) (myNcclRank cfg p i)).flatten := by
    intro p
    unfold gatherLocalConcat
    congr 1
    apply List.map_congr_left
    intro i hi
    rw [runScatterState_eval, if_pos (List.mem_range.mp hi)]
  rcases hcfg : cfg.mpi with _ | procs
  · rw [gatherState_single cfg _ hcfg me]
    have hR : numNcclRanks cfg = cfg.numDevices := by
      simp [numNcclRanks, hcfg]
    have hrank : ∀ i, myNcclRank cfg me i = i := by
      intro i
      simp [myNcclRank, hcfg]
    rw [hlocal me]
    simp only [hrank, hR, sliceOf_eq_chunk]
    exact flatten_chunks _ _ data (le_mul_ceilDiv data.length cfg.numDevices hD)
  · have hprocs : 0 < procs := by
      simpa [numProcs, hcfg] using hP
    have hrank : ∀ p i, myNcclRank cfg p i = p * cfg.numDevices + i := by
      intro p i
      simp [myNcclRank, hcfg]
    have hR : numNcclRanks cfg = procs * cfg.numDevices := by
      simp [numNcclRanks, hcfg]
    rw [gatherState_mpi cfg _ procs hcfg me]
    simp only [hlocal, hrank]
    rw [flatten_range_mul procs cfg.numDevices
      (fun rk => sliceOf data (numNcclRanks cfg) rk)]
    simp only [hR, sliceOf_eq_chunk]
    exact flatten_chunks _ _ data
      (le_mul_ceilDiv data.length (procs * cfg.numDevices)
        (Nat.mul_pos hprocs hD))

/-- Witness for C2: one process, two devices, a three-element vector
(which does not divide evenly) survives the scatter/gather round trip. -/
theorem scatterState_gatherState_roundtrip_witness :
    0 < (⟨2, none⟩ : CommConfig).numDevices ∧ 0 < numProcs ⟨2, none⟩ ∧
    gatherState ⟨2, none⟩
      (fun p => runScatterState ⟨2, none⟩ p [10, 20, 30] fun _ => ([] : List Nat)) 0
      = [10, 20, 30] :=
  ⟨by decide, by decide,
    scatterState_gatherState_roundtrip ⟨2, none⟩ [10, 20, 30] (fun _ _ => []) 0
      (by decide) (by decide)⟩

/-- C9: scatterState never enforces the equal-division precondition. For
any data vector and configuration it invokes `setFn` exactly once per
local device with the ceiling-division slice `[rank*s, min(rank*s+s, L))`,
and it stays total even on sizes where `shardSize` would abort. -/
theorem scatterState_no_divisibility_check (cfg : CommConfig) (me : Nat)
    (data : List α) :
    (scatterStateCalls cfg me data).length = cfg.numDevices ∧
    (∀ i, i < cfg.numDevices →
      (scatterStateCalls cfg me data)[i]? =
        some (i, sliceOf data (numNcclRanks cfg) (myNcclRank cfg me i))) ∧
    (shardSize data.length (numNcclRanks cfg) = none →
      (scatterStateCalls cfg me data).length = cfg.numDevices) := by
  refine ⟨?_, ?_, fun _ => ?_⟩
  · simp [scatterStateCalls]
  · intro i hi
    unfold scatterStateCalls
    rw [List.getElem?_map]
    simp [List.getElem?_range, hi]
  · simp [scatterStateCalls]

/-- Witness for C9: ten elements over three ranks, where `shardSize`
aborts, still produce one `setFn` call per device with the clipped slice. -/
theorem scatterState_no_divisibility_check_witness :
    shardSize (List.range 10).length (numNcclRanks ⟨3, none⟩) = none ∧
    (scatterStateCalls ⟨3, none⟩ 0 (List.range 10)).length = 3 ∧
    (scatterStateCalls ⟨3, none⟩ 0 (List.range 10))[2]? =
      some (2, sliceOf (List.range 10) (numNcclRanks ⟨3, none⟩)
        (myNcclRank ⟨3, none⟩ 0 2)) :=
  ⟨by decide,
   (scatterState_no_divisibility_check ⟨3, none⟩ 0 (List.range 10)).1,
   (scatterState_no_divisibility_check ⟨3, none⟩ 0 (List.range 10)).2.1 2 (by decide)⟩

/-- NCCLCommunicator::swapParams (communicator.cu:253-280) as executed by
the process of MPI rank `p`, acting on the fleet state: `bufs q i` is
device `i`'s full parameter buffer on process `q`, `shards q i` is the
distributed parameter shard owned by process `q`'s local device `i`.
The call gathers all distributed shards into one CPU vector
(`gatherState`), reads `graphs_[0]`'s full buffer, aborts (`none`) when
their sizes differ, swaps the two CPU vectors, scatters the old full
buffer back into this process's shard stores (aborting on any per-shard
size mismatch, the `setFn` ABORT_IF), and finally broadcasts the gathered
vector to every local device's full buffer. Only data moves; nothing is
computed on the elements. Returns process `p`'s new buffer row and shard
row. -/
def swapParamsAt (cfg : CommConfig) (bufs shards : Nat → Nat → List α)
    (p : Nat) : Option ((Nat → List α) × (Nat → List α)) :=
  let distributedParams := gatherState cfg shards p
  let localParams := bufs p 0
  if distributedParams.length ≠ localParams.length then none
  else
    let calls := scatterStateCalls cfg p localParams
    if calls.any fun c => (shards p c.1).length != c.2.length then none
    else some
      ((List.range cfg.numDevices).foldl
        (fun b i => Function.update b i distributedParams) (bufs p),
       calls.foldl (fun st c => Function.update st c.1 c.2) (shards p))

/-- The collective swapParams call, invoked identically on every
participating process: each process rewrites its own row of the fleet
state; the call aborts when any process's checks fail. -/
def swapParamsGlobal (cfg : CommConfig) (bufs shards : Nat → Nat → List α) :
    Option ((Nat → Nat → List α) × (Nat → Nat → List α)) :=
  if ((List.range (numProcs cfg)).all
      fun p => (swapParamsAt cfg bufs shards p).isSome) then
    some
      (fun p => if p < numProcs cfg then
          ((swapParamsAt cfg bufs shards p).getD (bufs p, shards p)).1
        else bufs p,
       fun p => if p < numProcs cfg then
          ((swapParamsAt cfg bufs shards p).getD (bufs p, shards p)).2
        else shards p)
  else none

theorem numNcclRanks_pos (cfg : CommConfig) (hD : 0 < cfg.numDevices)
    (hP : 0 < numProcs cfg) : 0 < numNcclRanks cfg := by
  rcases hcfg : cfg.mpi with _ | procs
  · simpa [numNcclRanks, hcfg] using hD
  · have hprocs : 0 < procs := by simpa [numProcs, hcfg] using hP
    simp only [numNcclRanks, hcfg]
    exact Nat.mul_pos hprocs hD

theorem myNcclRank_lt (cfg : CommConfig) (p i : Nat)
    (hp : p < numProcs cfg) (hi : i < cfg.numDevices) :
    myNcclRank cfg p i < numNcclRanks cfg := by
  rcases hcfg : cfg.mpi with _ | procs
  · simpa [myNcclRank, numNcclRanks, hcfg] using hi
  · have hprocs : p < procs := by simpa [numProcs, hcfg] using hp
    simp only [myNcclRank, numNcclRanks, hcfg]
    calc p * cfg.numDevices + i < p * cfg.numDevices + cfg.numDevices := by omega
      _ = (p + 1) * cfg.numDevices := by ring
      _ ≤ procs * cfg.numDevices := Nat.mul_le_mul_right _ (by omega)

theorem sliceOf_length (data : List α) (R r : Nat) :
    (sliceOf data R r).length =
      min (r * ((data.length + R - 1) / R) + ((data.length + R - 1) / R))
          data.length
        - r * ((data.length + R - 1) / R) := by
  simp only [sliceOf, List.length_take, List.length_drop]
  omega

theorem flatten_sliceOf (data : List α) (R : Nat) (hR : 0 < R) :
    ((List.range R).map fun r => sliceOf data R r).flatten = data := by
  simp only [sliceOf_eq_chunk]
  exact flatten_chunks _ _ data (le_mul_ceilDiv data.length R hR)

theorem gatherState_of_rows (cfg : CommConfig) (getFn : Nat → Nat → List α)
    (S : Nat → List α) (p : Nat) (hp : p < numProcs cfg)
    (h : ∀ q, q < numProcs cfg → ∀ i, i < cfg.numDevices →
      getFn q i = S (myNcclRank cfg q i)) :
    gatherState cfg getFn p = ((List.range (numNcclRanks cfg)).map S).flatten := by
  rcases hcfg : cfg.mpi with _ | procs
  · rw [gatherState_single cfg _ hcfg p]
    have hR : numNcclRanks cfg = cfg.numDevices := by
      simp [numNcclRanks, hcfg]
    rw [hR]
    unfold gatherLocalConcat
    congr 1
    apply List.map_congr_left
    intro i hi
    rw [h p hp i (List.mem_range.mp hi)]
    simp [myNcclRank, hcfg]
  · have hnum : numProcs cfg = procs := by
      simp [numProcs, hcfg]
    rw [gatherState_mpi cfg _ procs hcfg p]
    have hrow : ∀ q, q < procs →
        gatherLocalConcat cfg (getFn q)
          = ((List.range cfg.numDevices).map fun i =>
              S (q * cfg.numDevices + i)).flatten := by
      intro q hq
      unfold gatherLocalConcat
      congr 1
      apply List.map_congr_left
      intro i hi
      rw [h q (by omega) i (List.mem_range.mp hi)]
      simp [myNcclRank, hcfg]
    have hmap : (List.range procs).map (fun r => gatherLocalConcat cfg (getFn r))
        = (List.range procs).map fun q =>
            ((List.range cfg.numDevices).map fun i =>
              S (q * cfg.numDevices + i)).flatten := by
      apply List.map_congr_left
      intro q hq
      exact hrow q (List.mem_range.mp hq)
    rw [hmap, flatten_range_mul procs cfg.numDevices S]
    have hR : numNcclRanks cfg = procs * cfg.numDevices := by
      simp [numNcclRanks, hcfg]
    rw [hR]

theorem sliceOf_flatten (s : Nat) :
    ∀ (r R : Nat) (S : Nat → List α), r < R →
      (∀ j, j < R →
        (S j).length = min s ((((List.range R).map S).flatten).length - j * s)) →
      ((((List.range R).map S).flatten).drop (r * s)).take s = S r := by
  intro r
  induction r with
  | zero =>
    intro R S hr hlen
    obtain ⟨R1, rfl⟩ : ∃ R1, R = R1 + 1 := ⟨R - 1, by omega⟩
    rw [List.range_succ_eq_map, List.map_cons, List.map_map, List.flatten_cons] at hlen ⊢
    have h0 := hlen 0 (by omega)
    rw [List.length_append] at h0
    simp only [Nat.zero_mul, Nat.sub_zero] at h0 ⊢
    rw [List.drop_zero]
    rcases le_or_lt s ((S 0).length +
        (((List.range R1).map (S ∘ Nat.succ)).flatten).length) with hc | hc
    · have hS0 : (S 0).length = s := by omega
      rw [List.take_append_eq_append_take, List.take_of_length_le (by omega),
        hS0, Nat.sub_self, List.take_zero, List.append_nil]
    · have hTnil : ((List.range R1).map (S ∘ Nat.succ)).flatten = [] :=
        List.eq_nil_of_length_eq_zero (by omega)
      rw [hTnil, List.append_nil]
      exact List.take_of_length_le (by omega)
  | succ r ih =>
    intro R S hr hlen
    obtain ⟨R1, rfl⟩ : ∃ R1, R = R1 + 1 := ⟨R - 1, by omega⟩
    rw [List.range_succ_eq_map, List.map_cons, List.map_map, List.flatten_cons] at hlen ⊢
    have h0 := hlen 0 (by omega)
    rw [List.length_append] at h0
    simp only [Nat.zero_mul, Nat.sub_zero] at h0
    have hmul : (r + 1) * s = r * s + s := by ring
    rcases le_or_lt s ((S 0).length +
        (((List.range R1).map (S ∘ Nat.succ)).flatten).length) with hc | hc
    · have hS0 : (S 0).length = s := by omega
      rw [List.drop_append_eq_append_drop,
        List.drop_eq_nil_of_le (by omega), List.nil_append]
      have hidx : (r + 1) * s - (S 0).length = r * s := by omega
      rw [hidx]
      have harg : ∀ j, j < R1 → ((S ∘ Nat.succ) j).length
          = min s ((((List.range R1).map (S ∘ Nat.succ)).flatten).length - j * s) := by
        intro j hj
        have hj2 := hlen (j + 1) (by omega)
        rw [List.length_append] at hj2
        have hmulj : (j + 1) * s = j * s + s := by ring
        rw [hmulj] at hj2
        simp only [Function.comp_apply, Nat.succ_eq_add_one]
        omega
      exact ih R1 (S ∘ Nat.succ) (by omega) harg
    · have hTnil : ((List.range R1).map (S ∘ Nat.succ)).flatten = [] :=
        List.eq_nil_of_length_eq_zero (by omega)
      rw [hTnil, List.append_nil]
      have hlen1 := hlen (r + 1) hr
      rw [hTnil, List.append_nil] at hlen1
      have hnil : (S (r + 1)).length = 0 := by omega
      rw [List.eq_nil_of_length_eq_zero hnil,
        List.drop_eq_nil_of_le (by omega), List.take_nil]

theorem swapParamsAt_spec (cfg : CommConfig) (bufs shards : Nat → Nat → List α)
    (P : List α) (S : Nat → List α) (p : Nat)
    (hD : 0 < cfg.numDevices) (hp : p < numProcs cfg)
    (hbuf : ∀ q, q < numProcs cfg → ∀ i, i < cfg.numDevices → bufs q i = P)
    (hsh : ∀ q, q < numProcs cfg → ∀ i, i < cfg.numDevices →
      shards q i = S (myNcclRank cfg q i))
    (hlen : (((List.range (numNcclRanks cfg)).map S).flatten).length = P.length)
    (hslen : ∀ r, r < numNcclRanks cfg →
      (S r).length = (sliceOf P (numNcclRanks cfg) r).length) :
    swapParamsAt cfg bufs shards p =
      some (fun i => if i < cfg.numDevices
              then ((List.range (numNcclRanks cfg)).map S).flatten else bufs p i,
            fun i => if i < cfg.numDevices
              then sliceOf P (numNcclRanks cfg) (myNcclRank cfg p i)
              else shards p i) := by
  have hgather : gatherState cfg shards p
      = ((List.range (numNcclRanks cfg)).map S).flatten :=
    gatherState_of_rows cfg shards S p hp hsh
  have hbufP : bufs p 0 = P := hbuf p hp 0 hD
  have hany : ((scatterStateCalls cfg p P).any
      fun c => (shards p c.1).length != c.2.length) = false := by
    rw [List.any_eq_false]
    intro c hc
    unfold scatterStateCalls at hc
    obtain ⟨i, hi, rfl⟩ := List.mem_map.mp hc
    have hiD : i < cfg.numDevices := List.mem_range.mp hi
    simp only [bne_iff_ne, ne_eq, Decidable.not_not]
    rw [hsh p hp i hiD]
    exact hslen _ (myNcclRank_lt cfg p i hp hiD)
  simp only [swapParamsAt]
  rw [hgather, hbufP]
  rw [if_neg (by simp [hlen])]
  rw [if_neg (by rw [hany]; exact Bool.false_ne_true)]
  congr 1
  refine Prod.ext ?_ ?_
  · funext i
    exact foldl_update_range
      (fun _ _ => ((List.range (numNcclRanks cfg)).map S).flatten)
      cfg.numDevices (bufs p) i
  · funext i
    unfold scatterStateCalls
    rw [List.foldl_map]
    exact foldl_update_range
      (fun j _ => sliceOf P (numNcclRanks cfg) (myNcclRank cfg p j))
      cfg.numDevices (shards p) i

theorem swapParamsGlobal_spec (cfg : CommConfig) (bufs shards : Nat → Nat → List α)
    (P : List α) (S : Nat → List α)
    (hD : 0 < cfg.numDevices)
    (hbuf : ∀ q, q < numProcs cfg → ∀ i, i < cfg.numDevices → bufs q i = P)
    (hsh : ∀ q, q < numProcs cfg → ∀ i, i < cfg.numDevices →
      shards q i = S (myNcclRank cfg q i))
    (hlen : (((List.range (numNcclRanks cfg)).map S).flatten).length = P.length)
    (hslen : ∀ r, r < numNcclRanks cfg →
      (S r).length = (sliceOf P (numNcclRanks cfg) r).length) :
    swapParamsGlobal cfg bufs shards =
      some (fun q i => if q < numProcs cfg ∧ i < cfg.numDevices
              then ((List.range (numNcclRanks cfg)).map S).flatten else bufs q i,
            fun q i => if q < numProcs cfg ∧ i < cfg.numDevices
              then sliceOf P (numNcclRanks cfg) (myNcclRank cfg q i)
              else shards q i) := by
  have hat : ∀ q, q < numProcs cfg → swapParamsAt cfg bufs shards q =
      some (fun i => if i < cfg.numDevices
              then ((List.range (numNcclRanks cfg)).map S).flatten else bufs q i,
            fun i => if i < cfg.numDevices
              then sliceOf P (numNcclRanks cfg) (myNcclRank cfg q i)
              else shards q i) :=
    fun q hq => swapParamsAt_spec cfg bufs shards P S q hD hq hbuf hsh hlen hslen
  have hcond : ((List.range (numProcs cfg)).all
      fun p => (swapParamsAt cfg bufs shards p).isSome) = true := by
    rw [List.all_eq_true]
    intro q hq
    rw [hat q (List.mem_range.mp hq)]
    rfl
  have hfst : (fun p => if p < numProcs cfg then
        ((swapParamsAt cfg bufs shards p).getD (bufs p, shards p)).1 else bufs p)
      = fun q i => if q < numProcs cfg ∧ i < cfg.numDevices
          then ((List.range (numNcclRanks cfg)).map S).flatten else bufs q i := by
    funext q
    by_cases hq : q < numProcs cfg
    · rw [if_pos hq, hat q hq]
      simp only [Option.getD_some]
      funext i
      by_cases hi : i < cfg.numDevices
      · rw [if_pos hi, if_pos ⟨hq, hi⟩]
      · rw [if_neg hi, if_neg (by tauto)]
    · rw [if_neg hq]
      funext i
      rw [if_neg (by tauto)]
  have hsnd : (fun p => if p < numProcs cfg then
        ((swapParamsAt cfg bufs shards p).getD (bufs p, shards p)).2 else shards p)
      = fun q i => if q < numProcs cfg ∧ i < cfg.numDevices
          then sliceOf P (numNcclRanks cfg) (myNcclRank cfg q i)
          else shards q i := by
    funext q
    by_cases hq : q < numProcs cfg
    · rw [if_pos hq, hat q hq]
      simp only [Option.getD_some]
      funext i
      by_cases hi : i < cfg.numDevices
      · rw [if_pos hi, if_pos ⟨hq, hi⟩]
      · rw [if_neg hi, if_neg (by tauto)]
    · rw [if_neg hq]
      funext i
      rw [if_neg (by tauto)]
  unfold swapParamsGlobal
  rw [if_pos hcond, hfst, hsnd]

/-- C3: swapParams postcondition. When every device's full parameter
buffer holds the same value `P` and the distributed shard store holds the
shards `S` (one per rank, of the sizes the scatter expects), the
collective swapParams succeeds, every device's full buffer becomes the
rank-order concatenation of `S`, and every rank's entry in the
distributed shard store becomes the corresponding shard slice of `P`.
Only data moves: the element type is abstract, so no arithmetic can
occur. -/
theorem swapParams_postcondition (cfg : CommConfig)
    (bufs shards : Nat → Nat → List α) (P : List α) (S : Nat → List α)
    (hD : 0 < cfg.numDevices)
    (hbuf : ∀ q, q < numProcs cfg → ∀ i, i < cfg.numDevices → bufs q i = P)
    (hsh : ∀ q, q < numProcs cfg → ∀ i, i < cfg.numDevices →
      shards q i = S (myNcclRank cfg q i))
    (hlen : (((List.range (numNcclRanks cfg)).map S).flatten).length = P.length)
    (hslen : ∀ r, r < numNcclRanks cfg →
      (S r).length = (sliceOf P (numNcclRanks cfg) r).length) :
    ∃ res, swapParamsGlobal cfg bufs shards = some res ∧
      (∀ q, q < numProcs cfg → ∀ i, i < cfg.numDevices →
        res.1 q i = ((List.range (numNcclRanks cfg)).map S).flatten) ∧
      (∀ q, q < numProcs cfg → ∀ i, i < cfg.numDevices →
        res.2 q i = sliceOf P (numNcclRanks cfg) (myNcclRank cfg q i)) := by
  refine ⟨_, swapParamsGlobal_spec cfg bufs shards P S hD hbuf hsh hlen hslen,
    ?_, ?_⟩
  · intro q hq i hi
    show (if q < numProcs cfg ∧ i < cfg.numDevices
        then ((List.range (numNcclRanks cfg)).map S).flatten else bufs q i)
      = ((List.range (numNcclRanks cfg)).map S).flatten
    rw [if_pos ⟨hq, hi⟩]
  · intro q hq i hi
    show (if q < numProcs cfg ∧ i < cfg.numDevices
        then sliceOf P (numNcclRanks cfg) (myNcclRank cfg q i) else shards q i)
      = sliceOf P (numNcclRanks cfg) (myNcclRank cfg q i)
    rw [if_pos ⟨hq, hi⟩]

/-- Witness for C3: one process, one device, canonical buffer `[1, 2]`
and shard store `[3, 4]`. -/
theorem swapParams_postcondition_witness :
    ∃ res, swapParamsGlobal ⟨1, none⟩ (fun _ _ => [1, 2])
        (fun _ _ => ([3, 4] : List Nat)) = some res ∧
      (∀ q, q < numProcs ⟨1, none⟩ → ∀ i, i < (⟨1, none⟩ : CommConfig).numDevices →
        res.1 q i = ((List.range (numNcclRanks ⟨1, none⟩)).map
          (fun _ => ([3, 4] : List Nat))).flatten) ∧
      (∀ q, q < numProcs ⟨1, none⟩ → ∀ i, i < (⟨1, none⟩ : CommConfig).numDevices →
        res.2 q i = sliceOf [1, 2] (numNcclRanks ⟨1, none⟩)
          (myNcclRank ⟨1, none⟩ q i)) :=
  swapParams_postcondition ⟨1, none⟩ (fun _ _ => [1, 2]) (fun _ _ => [3, 4])
    [1, 2] (fun _ => [3, 4]) (by decide)
    (fun _ _ _ _ => rfl) (fun _ _ _ _ => rfl) rfl
    (by
      intro r hr
      have h0 : r = 0 := Nat.lt_one_iff.mp hr
      subst h0
      decide)

/-- C4: swap involution. Applying the collective swapParams twice in
succession, with no modification in between, restores the canonical full
parameter buffer of every device and every distributed shard exactly. -/
theorem swapParams_involution (cfg : CommConfig)
    (bufs shards : Nat → Nat → List α) (P : List α) (S : Nat → List α)
    (hD : 0 < cfg.numDevices) (hP : 0 < numProcs cfg)
    (hbuf : ∀ q, q < numProcs cfg → ∀ i, i < cfg.numDevices → bufs q i = P)
    (hsh : ∀ q, q < numProcs cfg → ∀ i, i < cfg.numDevices →
      shards q i = S (myNcclRank cfg q i))
    (hlen : (((List.range (numNcclRanks cfg)).map S).flatten).length = P.length)
    (hslen : ∀ r, r < numNcclRanks cfg →
      (S r).length = (sliceOf P (numNcclRanks cfg) r).length) :
    (swapParamsGlobal cfg bufs shards).bind
      (fun st => swapParamsGlobal cfg st.1 st.2) = some (bufs, shards) := by
  have hR : 0 < numNcclRanks cfg := numNcclRanks_pos cfg hD hP
  have hrec : ∀ r, r < numNcclRanks cfg →
      sliceOf (((List.range (numNcclRanks cfg)).map S).flatten)
        (numNcclRanks cfg) r = S r := by
    intro r hr
    have harg : ∀ j, j < numNcclRanks cfg → (S j).length =
        min (((((List.range (numNcclRanks cfg)).map S).flatten).length
            + numNcclRanks cfg - 1) / numNcclRanks cfg)
          ((((List.range (numNcclRanks cfg)).map S).flatten).length
            - j * (((((List.range (numNcclRanks cfg)).map S).flatten).length
                + numNcclRanks cfg - 1) / numNcclRanks cfg)) := by
      intro j hj
      have hsl := hslen j hj
      rw [sliceOf_length] at hsl
      rw [hlen]
      generalize hLp : P.length = L at hsl ⊢
      generalize hsg : (L + numNcclRanks cfg - 1) / numNcclRanks cfg = s at hsl ⊢
      generalize hjs : j * s = m at hsl ⊢
      omega
    rw [sliceOf_eq_chunk]
    exact sliceOf_flatten _ r (numNcclRanks cfg) S hr harg
  rw [swapParamsGlobal_spec cfg bufs shards P S hD hbuf hsh hlen hslen]
  simp only [Option.some_bind]
  have hlen2 : (((List.range (numNcclRanks cfg)).map
        fun r => sliceOf P (numNcclRanks cfg) r).flatten).length
      = (((List.range (numNcclRanks cfg)).map S).flatten).length := by
    rw [flatten_sliceOf P (numNcclRanks cfg) hR]
    exact hlen.symm
  have hslen2 : ∀ r, r < numNcclRanks cfg →
      ((fun r => sliceOf P (numNcclRanks cfg) r) r).length =
        (sliceOf (((List.range (numNcclRanks cfg)).map S).flatten)
          (numNcclRanks cfg) r).length := by
    intro r hr
    show (sliceOf P (numNcclRanks cfg) r).length = _
    rw [sliceOf_length, sliceOf_length, hlen]
  have h2 := swapParamsGlobal_spec cfg
    (fun q i => if q < numProcs cfg ∧ i < cfg.numDevices
      then ((List.range (numNcclRanks cfg)).map S).flatten else bufs q i)
    (fun q i => if q < numProcs cfg ∧ i < cfg.numDevices
      then sliceOf P (numNcclRanks cfg) (myNcclRank cfg q i) else shards q i)
    (((List.range (numNcclRanks cfg)).map S).flatten)
    (fun r => sliceOf P (numNcclRanks cfg) r)
    hD
    (by
      intro q hq i hi
      show (if q < numProcs cfg ∧ i < cfg.numDevices
          then ((List.range (numNcclRanks cfg)).map S).flatten else bufs q i)
        = ((List.range (numNcclRanks cfg)).map S).flatten
      rw [if_pos ⟨hq, hi⟩])
    (by
      intro q hq i hi
      show (if q < numProcs cfg ∧ i < cfg.numDevices
          then sliceOf P (numNcclRanks cfg) (myNcclRank cfg q i) else shards q i)
        = sliceOf P (numNcclRanks cfg) (myNcclRank cfg q i)
      rw [if_pos ⟨hq, hi⟩])
    hlen2 hslen2
  rw [h2]
  have hN1 : (fun q i => if q < numProcs cfg ∧ i < cfg.numDevices
      then ((List.range (numNcclRanks cfg)).map
        fun r => sliceOf P (numNcclRanks cfg) r).flatten
      else if q < numProcs cfg ∧ i < cfg.numDevices
        then ((List.range (numNcclRanks cfg)).map S).flatten else bufs q i)
      = bufs := by
    funext q i
    by_cases hqi : q < numProcs cfg ∧ i < cfg.numDevices
    · rw [if_pos hqi, flatten_sliceOf P (numNcclRanks cfg) hR,
        hbuf q hqi.1 i hqi.2]
    · rw [if_neg hqi, if_neg hqi]
  have hN2 : (fun q i => if q < numProcs cfg ∧ i < cfg.numDevices
      then sliceOf (((List.range (numNcclRanks cfg)).map S).flatten)
        (numNcclRanks cfg) (myNcclRank cfg q i)
      else if q < numProcs cfg ∧ i < cfg.numDevices
        then sliceOf P (numNcclRanks cfg) (myNcclRank cfg q i) else shards q i)
      = shards := by
    funext q i
    by_cases hqi : q < numProcs cfg ∧ i < cfg.numDevices
    · rw [if_pos hqi, hsh q hqi.1 i hqi.2]
      exact hrec _ (myNcclRank_lt cfg q i hqi.1 hqi.2)
    · rw [if_neg hqi, if_neg hqi]
  rw [hN1, hN2]

/-- Witness for C4: one process, one device, buffer `[1, 2]` and shard
`[3, 4]`; two swaps restore the original state exactly. -/
theorem swapParams_involution_witness :
    (swapParamsGlobal ⟨1, none⟩ (fun _ _ => [1, 2])
        (fun _ _ => ([3, 4] : List Nat))).bind
      (fun st => swapParamsGlobal ⟨1, none⟩ st.1 st.2)
      = some (fun _ _ => [1, 2], fun _ _ => [3, 4]) :=
  swapParams_involution ⟨1, none⟩ (fun _ _ => [1, 2]) (fun _ _ => [3, 4])
    [1, 2] (fun _ => [3, 4]) (by decide) (by decide)
    (fun _ _ _ _ => rfl) (fun _ _ _ _ => rfl) rfl
    (by
      intro r hr
      have h0 : r = 0 := Nat.lt_one_iff.mp hr
      subst h0
      decide)

/-- Invocation triples of NCCLCommunicator::foreach (communicator.cu:193-210):
for each local device `i`, in loop order, the callback is invoked as
`func(i, begin, end)` with the bounds of `localShardRange(i)`; both the
parallel and the sequential branch compute exactly these arguments before
branching on `parallel`. `none` when `shardSize` aborts. -/
def foreachTriples (cfg : CommConfig) (dataSize me : Nat) :
    Option (List (Nat × Nat × Nat)) :=
  (shardSize dataSize (numNcclRanks cfg)).map fun s =>
    (List.range cfg.numDevices).map fun i =>
      (i, myNcclRank cfg me i * s, min (myNcclRank cfg me i * s + s) dataSize)

/-- Sequential execution of foreach (`parallel = false`): each device's
callback runs in device order, reading and updating that device's own
buffer. -/
def runForeachSeq (cfg : CommConfig) (dataSize me : Nat)
    (func : Nat → Nat → Nat → List α → List α) (bufs : Nat → List α) :
    Option (Nat → List α) :=
  (shardSize dataSize (numNcclRanks cfg)).map fun s =>
    (List.range cfg.numDevices).foldl
      (fun st i => Function.update st i
        (func i (myNcclRank cfg me i * s)
          (min (myNcclRank cfg me i * s + s) dataSize) (st i)))
      bufs

/-- Parallel execution of foreach (`parallel = true`): one thread per
local device; foreach callbacks must be independent across devices, so
each thread reads and writes only its own device's buffer and every
device's final buffer is the callback applied to its initial buffer. -/
def runForeachPar (cfg : CommConfig) (dataSize me : Nat)
    (func : Nat → Nat → Nat → List α → List α) (bufs : Nat → List α) :
    Option (Nat → List α) :=
  (shardSize dataSize (numNcclRanks cfg)).map fun s => fun i =>
    if i < cfg.numDevices then
      func i (myNcclRank cfg me i * s)
        (min (myNcclRank cfg me i * s + s) dataSize) (bufs i)
    else bufs i

/-- C8: foreach mode equivalence. Running foreach with `parallel = true`
yields the same final buffer contents as `parallel = false` for any
deterministic per-shard callback, and the `(localIndex, begin, end)`
triples passed are exactly the ShardPartitioner ranges of each device's
global rank, identical in both modes. -/
theorem foreach_parallel_eq_sequential (cfg : CommConfig) (dataSize me : Nat)
    (func : Nat → Nat → Nat → List α → List α) (bufs : Nat → List α) :
    runForeachPar cfg dataSize me func bufs
      = runForeachSeq cfg dataSize me func bufs ∧
    (∀ ts, foreachTriples cfg dataSize me = some ts →
      ∀ i, i < cfg.numDevices → ∃ b e,
        ncclRankShardRange dataSize (numNcclRanks cfg) (myNcclRank cfg me i)
          = some (b, e) ∧ ts[i]? = some (i, b, e)) := by
  constructor
  · unfold runForeachPar runForeachSeq
    cases hs : shardSize dataSize (numNcclRanks cfg) with
    | none => rfl
    | some s =>
      simp only [Option.map_some']
      congr 1
      funext i
      exact (foldl_update_range
        (fun j st => func j (myNcclRank cfg me j * s)
          (min (myNcclRank cfg me j * s + s) dataSize) st)
        cfg.numDevices bufs i).symm
  · intro ts hts i hi
    unfold foreachTriples at hts
    cases hs : shardSize dataSize (numNcclRanks cfg) with
    | none =>
      rw [hs] at hts
      simp at hts
    | some s =>
      rw [hs] at hts
      simp only [Option.map_some', Option.some.injEq] at hts
      subst hts
      refine ⟨myNcclRank cfg me i * s,
        min (myNcclRank cfg me i * s + s) dataSize, ?_, ?_⟩
      · unfold ncclRankShardRange
        rw [hs]
        rfl
      · rw [List.getElem?_map]
        simp [List.getElem?_range, hi]

/-- Witness for C8: two devices, four elements; parallel equals
sequential, and the triples are the partitioner's ranges. -/
theorem foreach_parallel_eq_sequential_witness :
    (runForeachPar ⟨2, none⟩ 4 0 (fun _ b e l => b :: e :: l)
        (fun _ => ([] : List Nat))
      = runForeachSeq ⟨2, none⟩ 4 0 (fun _ b e l => b :: e :: l)
        (fun _ => [])) ∧
    (foreachTriples ⟨2, none⟩ 4 0 = some [(0, 0, 2), (1, 2, 4)] ∧
      ∃ b e, ncclRankShardRange 4 (numNcclRanks ⟨2, none⟩)
          (myNcclRank ⟨2, none⟩ 0 1) = some (b, e) ∧
        ([(0, 0, 2), (1, 2, 4)] : List (Nat × Nat × Nat))[1]? = some (1, b, e)) :=
  ⟨(foreach_parallel_eq_sequential ⟨2, none⟩ 4 0 (fun _ b e l => b :: e :: l)
      (fun _ => [])).1,
   by decide,
   (foreach_parallel_eq_sequential ⟨2, none⟩ 4 0 (fun _ b e l => b :: e :: l)
      (fun _ => [])).2 [(0, 0, 2), (1, 2, 4)] (by decide) 1 (by decide)⟩

/-- One named record of an optimizer-state file (io::Item): the record
name and its float payload, with the element type kept abstract. -/
structure IoItem (α : Type) where
  name : String
  data : List α
  deriving DecidableEq

/-- Per-rank Adam optimizer state: first (`mt_`) and second (`vt_`)
moment shard buffers; `none` while the tensor is unallocated (its
default, zero-initialized-on-first-use state). -/
structure AdamShard (α : Type) where
  mt : Option (List α)
  vt : Option (List α)
  deriving DecidableEq

/-- Per-rank Adagrad optimizer state: the `gt_` accumulator shard. -/
structure AdagradShard (α : Type) where
  gt : Option (List α)
  deriving DecidableEq

/-- Log events emitted by the load routines: the `LOG(info, "Loading ...")`
line and the `LOG(warn, "... parameters not found ...")` line. -/
inductive LogEvent
  | loadingInfo
  | missingWarn
  deriving DecidableEq

/-- The per-shard body of Adam::load's update loop (optimizers.cu:192-213):
`shardSize = ceil(totalSize / opts.size())` (the C++ computes it through
`(size_t)ceil(totalSize / (float)opts.size())`, embedded as Nat ceiling
division), `shift = id * shardSize`,
`size = min(shardSize, totalSize - shift)`; the shard's buffers are
allocated when absent and overwritten with the slices
`[shift, shift + size)` of the two full vectors. -/
def adamLoadShard (vMt vVt : List α) (numOpts id : Nat) : AdamShard α :=
  let totalSize := vMt.length
  let shardSize := (totalSize + numOpts - 1) / numOpts
  let shift := id * shardSize
  let size := min shardSize (totalSize - shift)
  { mt := some ((vMt.drop shift).take size),
    vt := some ((vVt.drop shift).take size) }

/-- Adam::load (optimizers.cu:156-214). The file system is embedded as
`Option (List (IoItem α))`: `none` when `boost::filesystem::exists` is
false, `some items` the records `io::loadItems` returns. The result pairs
the new shard states with the log events in emission order; an ABORT_IF
(mismatched opts/backends counts, or first and second moment vectors of
different sizes) is `none`. A record absent from the file leaves every
shard unchanged with only a warning logged. -/
def adamLoad (file : Option (List (IoItem α)))
    (opts : List (AdamShard α)) (backendsCount : Nat) :
    Option (List (AdamShard α) × List LogEvent) :=
  if opts.length ≠ backendsCount then none
  else match file with
  | none => some (opts, [])
  | some items =>
    let vMt := items.foldl
      (fun acc it => if it.name = "adam_mt" then it.data else acc) []
    let vVt := items.foldl
      (fun acc it => if it.name = "adam_vt" then it.data else acc) []
    if vMt.isEmpty ∨ vVt.isEmpty then
      some (opts, [LogEvent.loadingInfo, LogEvent.missingWarn])
    else if vMt.length ≠ vVt.length then none
    else some (opts.mapIdx (fun id _ => adamLoadShard vMt vVt opts.length id),
      [LogEvent.loadingInfo])

/-- The per-shard body of Adagrad::load's update loop
(optimizers.cu:70-88), same sharding arithmetic as Adam's. -/
def adagradLoadShard (vGt : List α) (numOpts id : Nat) : AdagradShard α :=
  let totalSize := vGt.length
  let shardSize := (totalSize + numOpts - 1) / numOpts
  let shift := id * shardSize
  let size := min shardSize (totalSize - shift)
  { gt := some ((vGt.drop shift).take size) }

/-- Adagrad::load (optimizers.cu:40-89), embedded like `adamLoad`. -/
def adagradLoad (file : Option (List (IoItem α)))
    (opts : List (AdagradShard α)) (backendsCount : Nat) :
    Option (List (AdagradShard α) × List LogEvent) :=
  if opts.length ≠ backendsCount then none
  else match file with
  | none => some (opts, [])
  | some items =>
    let vGt := items.foldl
      (fun acc it => if it.name = "adagrad_gt" then it.data else acc) []
    if vGt.isEmpty then
      some (opts, [LogEvent.loadingInfo, LogEvent.missingWarn])
    else
      some (opts.mapIdx (fun id _ => adagradLoadShard vGt opts.length id),
        [LogEvent.loadingInfo])

theorem foldl_record_of_absent (nm : String) :
    ∀ (items : List (IoItem α)) (acc : List α),
      (∀ it ∈ items, it.name ≠ nm) →
      items.foldl (fun acc it => if it.name = nm then it.data else acc) acc
        = acc := by
  intro items
  induction items with
  | nil =>
    intro acc _
    rfl
  | cons it rest ih =>
    intro acc h
    rw [List.foldl_cons, if_neg (h it (List.mem_cons_self it rest))]
    exact ih acc fun x hx => h x (List.mem_cons_of_mem it hx)

/-- C7: optimizer-state forward compatibility. Loading a present file
from which an expected named record is absent does not abort: the shard
states stay at their defaults and the only extra effect is a logged
warning. In particular a file with only the first-moment field, read by
Adam's codec, leaves the second moment untouched (all-zero), warns and
continues; Adagrad behaves the same for its accumulator record. -/
theorem load_missing_record_warns :
    (∀ (items : List (IoItem α)) (opts : List (AdamShard α)) (n : Nat),
      opts.length = n →
      ((∀ it ∈ items, it.name ≠ "adam_mt") ∨
        (∀ it ∈ items, it.name ≠ "adam_vt")) →
      adamLoad (some items) opts n
        = some (opts, [LogEvent.loadingInfo, LogEvent.missingWarn])) ∧
    (∀ (items : List (IoItem α)) (opts : List (AdagradShard α)) (n : Nat),
      opts.length = n →
      (∀ it ∈ items, it.name ≠ "adagrad_gt") →
      adagradLoad (some items) opts n
        = some (opts, [LogEvent.loadingInfo, LogEvent.missingWarn])) := by
  constructor
  · intro items opts n hn hmiss
    simp only [adamLoad]
    rw [if_neg (by omega)]
    rcases hmiss with h | h
    · rw [foldl_record_of_absent "adam_mt" items [] h]
      rw [if_pos (Or.inl List.isEmpty_nil)]
    · rw [foldl_record_of_absent "adam_vt" items [] h]
      rw [if_pos (Or.inr List.isEmpty_nil)]
  · intro items opts n hn hmiss
    simp only [adagradLoad]
    rw [if_neg (by omega)]
    rw [foldl_record_of_absent "adagrad_gt" items [] hmiss]
    rw [if_pos List.isEmpty_nil]

/-- Witness for C7: a file holding only `adam_mt` (and, for Adagrad, a
file holding an unrelated record) warns and leaves the single
unallocated shard untouched. -/
theorem load_missing_record_warns_witness :
    (([⟨"adam_mt", [1, 2]⟩] : List (IoItem Nat)).length = 1 ∧
      adamLoad (some [⟨"adam_mt", [1, 2]⟩]) [⟨none, none⟩] 1
        = some ([⟨none, none⟩], [LogEvent.loadingInfo, LogEvent.missingWarn])) ∧
    (adagradLoad (some [⟨"other", ([5] : List Nat)⟩]) [⟨none⟩] 1
      = some ([⟨none⟩], [LogEvent.loadingInfo, LogEvent.missingWarn])) :=
  ⟨⟨rfl, (load_missing_record_warns).1 [⟨"adam_mt", [1, 2]⟩] [⟨none, none⟩] 1
      rfl (Or.inr (by decide))⟩,
   (load_missing_record_warns).2 [⟨"other", [5]⟩] [⟨none⟩] 1 rfl (by decide)⟩

/-- C10: a wholly missing optimizer-state file is a silent no-op on load.
When the path does not exist, both Adam::load and Adagrad::load return
immediately: every shard's state is unchanged and nothing is logged. -/
theorem load_missing_file_noop :
    (∀ (opts : List (AdamShard α)) (n : Nat), opts.length = n →
      adamLoad none opts n = some (opts, [])) ∧
    (∀ (opts : List (AdagradShard α)) (n : Nat), opts.length = n →
      adagradLoad none opts n = some (opts, [])) := by
  constructor
  · intro opts n hn
    simp only [adamLoad]
    rw [if_neg (by omega)]
  · intro opts n hn
    simp only [adagradLoad]
    rw [if_neg (by omega)]

/-- Witness for C10: a missing file leaves one unallocated Adam shard and
one unallocated Adagrad shard untouched, with an empty log. -/
theorem load_missing_file_noop_witness :
    adamLoad none [(⟨none, none⟩ : AdamShard Nat)] 1 = some ([⟨none, none⟩], []) ∧
    adagradLoad none [(⟨none⟩ : AdagradShard Nat)] 1 = some ([⟨none⟩], []) :=
  ⟨(load_missing_file_noop).1 [⟨none, none⟩] 1 rfl,
   (load_missing_file_noop).2 [⟨none⟩] 1 rfl⟩

end Marian
